import Mathlib

/-!
Verification of the KZen `cryptography-utils` core: the curve-generic
scalar/point contracts (`src/elliptic/curves/traits.rs`) and the Pedersen
blinding Sigma protocol
(`src/cryptographic_primitives/proofs/sigma_valid_pedersen_blind.rs`).

The concrete curve backend (field/group arithmetic of secp256k1), the SHA-256
hash wrapper and the Pedersen commitment constructor are external collaborators
of the repository (its spec, sections 1 and 6).  They are modelled here:
scalars as `ZMod q` for the curve order `q`, points of the prime-order cyclic
group by their discrete logarithm with respect to the generator `G` (so `G`
itself is the exponent `1`, and the second generator `H` is an arbitrary
exponent), the hash and the x-coordinate map as arbitrary function parameters.
The protocol code of the repository is translated over this model.
-/

namespace CryptoUtils

/-- secp256k1 group order, the modulus of the scalar field (constant of the
external curve backend). -/
def secp256k1_curve_order : ℕ :=
  115792089237316195423570985008687907852837564279074904382605163141518161494337

namespace ECScalar

/-- Modelled from the spec: `ECScalar::zero` — the zero scalar. -/
def zero (q : ℕ) : ZMod q := 0

/-- Modelled from the spec: `ECScalar::random` samples a scalar from a
cryptographically secure source; the entropy is passed explicitly as an
arbitrary natural number which is reduced into the field. -/
def random (q : ℕ) (entropy : ℕ) : ZMod q := (entropy : ZMod q)

/-- Modelled from the spec: `ECScalar::from_bigint` constructs the scalar
`n % curve_order` from an arbitrary (big) integer. -/
def from_bigint (q : ℕ) (n : ℤ) : ZMod q := (n : ZMod q)

/-- Modelled from the spec: `ECScalar::to_bigint` returns the canonical
integer representative in `[0, curve_order)`. -/
def to_bigint {q : ℕ} (a : ZMod q) : ℤ := (ZMod.val a : ℤ)

/-- Modelled from the spec: `ECScalar::is_zero`. -/
def is_zero {q : ℕ} (a : ZMod q) : Bool := decide (a = 0)

/-- Modelled from the spec: `ECScalar::add`, `(self + other) mod curve_order`. -/
def add {q : ℕ} (a b : ZMod q) : ZMod q := a + b

/-- Modelled from the spec: `ECScalar::mul`, `(self * other) mod curve_order`. -/
def mul {q : ℕ} (a b : ZMod q) : ZMod q := a * b

/-- Modelled from the spec: `ECScalar::sub`, `(self - other) mod curve_order`. -/
def sub {q : ℕ} (a b : ZMod q) : ZMod q := a - b

/-- Modelled from the spec: `ECScalar::neg`, `-self mod curve_order`. -/
def neg {q : ℕ} (a : ZMod q) : ZMod q := -a

/-- Modelled from the spec: `ECScalar::invert`, `self^-1 (mod curve_order)`;
returns `none` exactly when `self` is zero. -/
def invert {q : ℕ} (a : ZMod q) : Option (ZMod q) :=
  if a = 0 then none else some a⁻¹

/-- Mapping with `to_bigint` and casting back into the field is the identity. -/
theorem intCast_to_bigint {q : ℕ} [NeZero q] (a : ZMod q) :
    ((to_bigint a : ℤ) : ZMod q) = a := by
  simp [to_bigint, ZMod.natCast_val, ZMod.intCast_cast]

end ECScalar

open ECScalar

/-- C5: Scalar field closure: for all scalars `a` and `b` of a curve with
positive order `q`, `to_bigint (add a b) = (to_bigint a + to_bigint b) % q`,
and the analogous modular-arithmetic equations hold for `mul`, `sub` and
`neg`. -/
theorem scalar_field_closure (q : ℕ) (hq : 0 < q) (a b : ZMod q) :
    to_bigint (ECScalar.add a b) = (to_bigint a + to_bigint b) % (q : ℤ) ∧
    to_bigint (ECScalar.mul a b) = (to_bigint a * to_bigint b) % (q : ℤ) ∧
    to_bigint (ECScalar.sub a b) = (to_bigint a - to_bigint b) % (q : ℤ) ∧
    to_bigint (ECScalar.neg a) = (- to_bigint a) % (q : ℤ) := by
  haveI : NeZero q := ⟨hq.ne'⟩
  refine ⟨?_, ?_, ?_, ?_⟩
  · have h : ECScalar.add a b =
        (((to_bigint a + to_bigint b : ℤ)) : ZMod q) := by
      push_cast [ECScalar.add, intCast_to_bigint]
      ring
    rw [h, to_bigint, ZMod.val_intCast]
  · have h : ECScalar.mul a b =
        (((to_bigint a * to_bigint b : ℤ)) : ZMod q) := by
      push_cast [ECScalar.mul, intCast_to_bigint]
      ring
    rw [h, to_bigint, ZMod.val_intCast]
  · have h : ECScalar.sub a b =
        (((to_bigint a - to_bigint b : ℤ)) : ZMod q) := by
      push_cast [ECScalar.sub, intCast_to_bigint]
      ring
    rw [h, to_bigint, ZMod.val_intCast]
  · have h : ECScalar.neg a = (((- to_bigint a : ℤ)) : ZMod q) := by
      push_cast [ECScalar.neg, intCast_to_bigint]
      ring
    rw [h, to_bigint, ZMod.val_intCast]

/-- Witness for C5 at the concrete curve order 13 with `a = 5`, `b = 9`. -/
theorem scalar_field_closure_witness :
    0 < 13 ∧
    (to_bigint (ECScalar.add (5 : ZMod 13) 9) =
        (to_bigint (5 : ZMod 13) + to_bigint (9 : ZMod 13)) % (13 : ℤ) ∧
      to_bigint (ECScalar.mul (5 : ZMod 13) 9) =
        (to_bigint (5 : ZMod 13) * to_bigint (9 : ZMod 13)) % (13 : ℤ) ∧
      to_bigint (ECScalar.sub (5 : ZMod 13) 9) =
        (to_bigint (5 : ZMod 13) - to_bigint (9 : ZMod 13)) % (13 : ℤ) ∧
      to_bigint (ECScalar.neg (5 : ZMod 13)) =
        (- to_bigint (5 : ZMod 13)) % (13 : ℤ)) :=
  ⟨by decide, scalar_field_closure 13 (by decide) 5 9⟩

/-- C6: `invert` returns `none` exactly on the zero scalar (it is a total
function, so it never panics), and for every nonzero scalar `a` of a
prime-order field it returns `some b` with `mul a b` the multiplicative
identity. -/
theorem invert_no_inverse_iff_zero (q : ℕ) (hq : Nat.Prime q) (a : ZMod q)
    (ha : a ≠ 0) :
    invert (ECScalar.zero q) = none ∧ invert a ≠ none ∧
      ∃ b, invert a = some b ∧ ECScalar.mul a b = 1 := by
  haveI : Fact (Nat.Prime q) := ⟨hq⟩
  refine ⟨by simp [invert, ECScalar.zero], by simp [invert, ha], a⁻¹, ?_, ?_⟩
  · simp [invert, ha]
  · simp [ECScalar.mul, mul_inv_cancel₀ ha]

/-- Witness for C6 at the prime order 13 with `a = 5`. -/
theorem invert_no_inverse_iff_zero_witness :
    Nat.Prime 13 ∧ (5 : ZMod 13) ≠ 0 ∧
      (invert (ECScalar.zero 13) = none ∧ invert (5 : ZMod 13) ≠ none ∧
        ∃ b, invert (5 : ZMod 13) = some b ∧ ECScalar.mul (5 : ZMod 13) b = 1) :=
  ⟨by norm_num, by decide, invert_no_inverse_iff_zero 13 (by norm_num) 5 (by decide)⟩

/-- C8: in-range invariant: every scalar-producing operation (`random`,
`zero`, `from_bigint` on an arbitrary integer, `add`, `sub`, `mul`, `neg`,
and `invert` on a nonzero scalar) yields a scalar whose `to_bigint` value
lies in `[0, q)`. -/
theorem scalar_in_range (q : ℕ) (hq : 0 < q) (n : ℤ) (entropy : ℕ)
    (a b c : ZMod q) (hc : c ≠ 0) :
    (0 ≤ to_bigint (random q entropy) ∧ to_bigint (random q entropy) < q) ∧
    (0 ≤ to_bigint (ECScalar.zero q) ∧ to_bigint (ECScalar.zero q) < q) ∧
    (0 ≤ to_bigint (from_bigint q n) ∧ to_bigint (from_bigint q n) < q) ∧
    (0 ≤ to_bigint (ECScalar.add a b) ∧ to_bigint (ECScalar.add a b) < q) ∧
    (0 ≤ to_bigint (ECScalar.sub a b) ∧ to_bigint (ECScalar.sub a b) < q) ∧
    (0 ≤ to_bigint (ECScalar.mul a b) ∧ to_bigint (ECScalar.mul a b) < q) ∧
    (0 ≤ to_bigint (ECScalar.neg a) ∧ to_bigint (ECScalar.neg a) < q) ∧
    (∀ d, invert c = some d → 0 ≤ to_bigint d ∧ to_bigint d < q) := by
  haveI : NeZero q := ⟨hq.ne'⟩
  have key : ∀ x : ZMod q, 0 ≤ to_bigint x ∧ to_bigint x < q := fun x =>
    ⟨Int.natCast_nonneg _, Int.ofNat_lt.mpr (ZMod.val_lt x)⟩
  exact ⟨key _, key _, key _, key _, key _, key _, key _, fun d _ => key d⟩

/-- Witness for C8 at the concrete curve order 13. -/
theorem scalar_in_range_witness :
    0 < 13 ∧ (7 : ZMod 13) ≠ 0 ∧
      ((0 ≤ to_bigint (random 13 100) ∧ to_bigint (random 13 100) < 13) ∧
        (0 ≤ to_bigint (ECScalar.zero 13) ∧ to_bigint (ECScalar.zero 13) < 13) ∧
        (0 ≤ to_bigint (from_bigint 13 (-27)) ∧
          to_bigint (from_bigint 13 (-27)) < 13) ∧
        (0 ≤ to_bigint (ECScalar.add (5 : ZMod 13) 9) ∧
          to_bigint (ECScalar.add (5 : ZMod 13) 9) < 13) ∧
        (0 ≤ to_bigint (ECScalar.sub (5 : ZMod 13) 9) ∧
          to_bigint (ECScalar.sub (5 : ZMod 13) 9) < 13) ∧
        (0 ≤ to_bigint (ECScalar.mul (5 : ZMod 13) 9) ∧
          to_bigint (ECScalar.mul (5 : ZMod 13) 9) < 13) ∧
        (0 ≤ to_bigint (ECScalar.neg (5 : ZMod 13)) ∧
          to_bigint (ECScalar.neg (5 : ZMod 13)) < 13) ∧
        (∀ d, invert (7 : ZMod 13) = some d →
          0 ≤ to_bigint d ∧ to_bigint d < 13)) :=
  ⟨by decide, by decide, scalar_in_range 13 (by decide) (-27) 100 5 9 7 (by decide)⟩

/-!
## Sigma protocol for a valid Pedersen blinding

Translated from `sigma_valid_pedersen_blind.rs`.  The point group is the
prime-order cyclic group of secp256k1, modelled by the discrete logarithm
with respect to the generator: a point is the element `p : ZMod q` standing
for `p*G`, the generator `G` is `1`, the second generator `base_point2` is an
arbitrary nonzero-or-zero exponent `h2`, `scalar_mul` multiplies the exponent
and `add_point` adds exponents.  The x-coordinate map `xcoor` and the hash
`create_hash` of the external backends are arbitrary function parameters:
every theorem below holds for any choice of them.
-/

/-- Type `ProofError` of the proofs module: a fieldless unit struct, carrying no
diagnostic data. -/
inductive ProofError : Type
  | mk : ProofError
deriving DecidableEq

/-- The generator `G` (`ECPoint::new()` in the source), exponent `1`. -/
def generator (q : ℕ) : ZMod q := 1

/-- Operation `ECPoint::scalar_mul`: multiplying the point `p` by the scalar `s`. -/
def scalar_mul {q : ℕ} (p : ZMod q) (s : ZMod q) : ZMod q := s * p

/-- Operation `ECPoint::add_point`: adding two points. -/
def add_point {q : ℕ} (p₁ p₂ : ZMod q) : ZMod q := p₁ + p₂

/-- Modelled from the spec: the external Pedersen commitment primitive,
`create_commitment_with_user_defined_randomness(message, randomness) =
message*G + randomness*H`, taking big integers and reducing them into the
scalar field. -/
def create_commitment_with_user_defined_randomness {q : ℕ} (h2 : ZMod q)
    (message randomness : ℤ) : ZMod q :=
  add_point (scalar_mul (generator q) (message : ZMod q))
    (scalar_mul h2 (randomness : ZMod q))

/-- The proof artifact `PedersenBlindingProof { e, m, A, com, z }`. -/
structure PedersenBlindingProof (q : ℕ) : Type where
  e : ZMod q
  m : ZMod q
  A : ZMod q
  com : ZMod q
  z : ZMod q
deriving DecidableEq

/-- Function `ProvePederesenBlind::prove` translated from the source.  The random
nonce `s` drawn by `ECScalar::new_random()` is passed explicitly, and the
backends are parameters: `xcoor` maps a point to the big integer of its
x-coordinate, `create_hash` is the SHA-256 wrapper `HSha256::create_hash`,
`h2` is `Secp256k1Point::base_point2()`. -/
def prove {q : ℕ} (xcoor : ZMod q → ℤ) (create_hash : List ℤ → ℤ)
    (h2 : ZMod q) (m r : ZMod q) (s : ZMod q) : PedersenBlindingProof q :=
  let h := h2
  let A := scalar_mul h s
  let com := create_commitment_with_user_defined_randomness h2
    (to_bigint m) (to_bigint r)
  let G := generator q
  let challenge := create_hash
    [xcoor G, xcoor h2, xcoor com, xcoor A, to_bigint m]
  let e : ZMod q := from_bigint q challenge
  let er := ECScalar.mul e r
  let z := ECScalar.add s er
  { e := e, m := m, A := A, com := com, z := z }

/-- Function `ProvePederesenBlind::verify` translated from the source. -/
def verify {q : ℕ} (xcoor : ZMod q → ℤ) (create_hash : List ℤ → ℤ)
    (h2 : ZMod q) (proof : PedersenBlindingProof q) :
    Except ProofError Unit :=
  let g := generator q
  let h := h2
  let challenge := create_hash
    [xcoor g, xcoor h, xcoor proof.com, xcoor proof.A, to_bigint proof.m]
  let e : ZMod q := from_bigint q challenge
  let zH := scalar_mul h proof.z
  let mG := scalar_mul g proof.m
  let emG := scalar_mul mG e
  let lhs := add_point zH emG
  let ecom := scalar_mul proof.com e
  let rhs := add_point ecom proof.A
  if lhs = rhs then Except.ok () else Except.error ProofError.mk

/-- The challenge `e` recomputed by `verify` from the own fields of the proof
(lines 83 to 90 of the source). -/
def recompute_challenge {q : ℕ} (xcoor : ZMod q → ℤ)
    (create_hash : List ℤ → ℤ) (h2 : ZMod q)
    (proof : PedersenBlindingProof q) : ZMod q :=
  from_bigint q (create_hash
    [xcoor (generator q), xcoor h2, xcoor proof.com, xcoor proof.A,
      to_bigint proof.m])

/-- C1: completeness of the Sigma protocol: for every pair of scalars
`(m, r)` (and every nonce `s`, second generator, x-coordinate map and hash
function), running `prove` and then `verify` on the resulting
`PedersenBlindingProof` returns the success result. -/
theorem prove_then_verify_ok (q : ℕ) (hq : 0 < q) (xcoor : ZMod q → ℤ)
    (create_hash : List ℤ → ℤ) (h2 m r s : ZMod q) :
    verify xcoor create_hash h2 (prove xcoor create_hash h2 m r s) =
      Except.ok () := by
  haveI : NeZero q := ⟨hq.ne'⟩
  simp only [verify, prove, create_commitment_with_user_defined_randomness,
    scalar_mul, add_point, generator, ECScalar.add, ECScalar.mul, from_bigint,
    intCast_to_bigint]
  split
  · rfl
  · rename_i hne
    exact absurd (by ring) hne

/-- Witness for C1 at the secp256k1 curve order with the example of the spec,
`m = 7`, `r = 13`, nonce `s = 21`, `base_point2` exponent `2`, the identity
x-coordinate map and a sum hash. -/
theorem prove_then_verify_ok_witness :
    0 < secp256k1_curve_order ∧
      verify (fun p => to_bigint p) (fun l => l.sum)
          (2 : ZMod secp256k1_curve_order)
          (prove (fun p => to_bigint p) (fun l => l.sum)
            (2 : ZMod secp256k1_curve_order) 7 13 21) =
        Except.ok () :=
  ⟨by norm_num [secp256k1_curve_order],
    prove_then_verify_ok secp256k1_curve_order
      (by norm_num [secp256k1_curve_order]) (fun p => to_bigint p)
      (fun l => l.sum) 2 7 13 21⟩

/-- C2: `verify` returns success if and only if the group equation
`z*H + e'*(m*G) = e'*com + A` holds with `e'` the recomputed challenge;
when the equation fails it returns `ProofError`, a value carrying no
further information (all `ProofError` values are equal). -/
theorem verify_ok_iff (q : ℕ) (xcoor : ZMod q → ℤ)
    (create_hash : List ℤ → ℤ) (h2 : ZMod q) (p : PedersenBlindingProof q) :
    (verify xcoor create_hash h2 p = Except.ok () ↔
      add_point (scalar_mul h2 p.z)
          (scalar_mul (scalar_mul (generator q) p.m)
            (recompute_challenge xcoor create_hash h2 p)) =
        add_point (scalar_mul p.com (recompute_challenge xcoor create_hash h2 p))
          p.A) ∧
    (add_point (scalar_mul h2 p.z)
          (scalar_mul (scalar_mul (generator q) p.m)
            (recompute_challenge xcoor create_hash h2 p)) ≠
        add_point (scalar_mul p.com (recompute_challenge xcoor create_hash h2 p))
          p.A →
      verify xcoor create_hash h2 p = Except.error ProofError.mk) ∧
    (∀ err₁ err₂ : ProofError, err₁ = err₂) := by
  refine ⟨?_, ?_, fun err₁ err₂ => by cases err₁; cases err₂; rfl⟩
  · simp only [verify, recompute_challenge]
    split
    · rename_i heq
      exact iff_of_true rfl heq
    · rename_i hne
      exact iff_of_false (by simp) hne
  · intro hne
    simp only [verify, recompute_challenge] at hne ⊢
    split
    · rename_i heq
      exact absurd heq hne
    · rfl

/-- Witness for the error branch of C2: a tampered proof at curve order 13 fails
the group equation and `verify` returns the `ProofError` value. -/
theorem verify_ok_iff_witness :
    (add_point (scalar_mul (2 : ZMod 13)
          (PedersenBlindingProof.z (⟨0, 1, 2, 3, 4⟩ : PedersenBlindingProof 13)))
        (scalar_mul
          (scalar_mul (generator 13)
            (PedersenBlindingProof.m (⟨0, 1, 2, 3, 4⟩ : PedersenBlindingProof 13)))
          (recompute_challenge (fun p => to_bigint p) (fun l => l.sum)
            (2 : ZMod 13) ⟨0, 1, 2, 3, 4⟩)) ≠
      add_point
        (scalar_mul
          (PedersenBlindingProof.com (⟨0, 1, 2, 3, 4⟩ : PedersenBlindingProof 13))
          (recompute_challenge (fun p => to_bigint p) (fun l => l.sum)
            (2 : ZMod 13) ⟨0, 1, 2, 3, 4⟩))
        (PedersenBlindingProof.A (⟨0, 1, 2, 3, 4⟩ : PedersenBlindingProof 13))) ∧
    verify (fun p => to_bigint p) (fun l => l.sum) (2 : ZMod 13)
        (⟨0, 1, 2, 3, 4⟩ : PedersenBlindingProof 13) =
      Except.error ProofError.mk :=
  ⟨by decide,
    (verify_ok_iff 13 (fun p => to_bigint p) (fun l => l.sum) 2
      ⟨0, 1, 2, 3, 4⟩).2.1 (by decide)⟩

/-- C3: `verify` ignores the stored challenge field `e` of the proof: two
`PedersenBlindingProof` values agreeing on `(m, A, com, z)` and differing
only in `e` are verified identically. -/
theorem verify_ignores_stored_e (q : ℕ) (xcoor : ZMod q → ℤ)
    (create_hash : List ℤ → ℤ) (h2 : ZMod q) (p : PedersenBlindingProof q)
    (e' : ZMod q) :
    verify xcoor create_hash h2 { p with e := e' } =
      verify xcoor create_hash h2 p := rfl

/-- Modelled from the spec (sections 4.3 and 4.4): the prover algorithm as the spec
words it — `A = s*H`; `com = m*G + r*H`; challenge `e` from hashing the
ordered tuple `(G_x, H_x, com_x, A_x, m)` reduced modulo the curve order;
response `z = s + e*r` in the scalar field; output
`PedersenBlindingProof { e, m, A, com, z }`. -/
def prove_spec_alg {q : ℕ} (xcoor : ZMod q → ℤ) (create_hash : List ℤ → ℤ)
    (h2 : ZMod q) (m r : ZMod q) (s : ZMod q) : PedersenBlindingProof q :=
  let A := scalar_mul h2 s
  let com := add_point (scalar_mul (generator q) m) (scalar_mul h2 r)
  let e : ZMod q := from_bigint q (create_hash
    [xcoor (generator q), xcoor h2, xcoor com, xcoor A, to_bigint m])
  let z := ECScalar.add s (ECScalar.mul e r)
  { e := e, m := m, A := A, com := com, z := z }

/-- C4: `prove` follows exactly the specified algorithm: its output agrees
with the five-step prover `prove_spec_alg` of the spec on every input (the random
nonce `s` being passed explicitly to both). -/
theorem prove_follows_spec (q : ℕ) (hq : 0 < q) (xcoor : ZMod q → ℤ)
    (create_hash : List ℤ → ℤ) (h2 m r s : ZMod q) :
    prove xcoor create_hash h2 m r s =
      prove_spec_alg xcoor create_hash h2 m r s := by
  haveI : NeZero q := ⟨hq.ne'⟩
  simp only [prove, prove_spec_alg,
    create_commitment_with_user_defined_randomness, intCast_to_bigint]

/-- Witness for C4 at curve order 13 with `m = 7`, `r = 3`, `s = 5`. -/
theorem prove_follows_spec_witness :
    0 < 13 ∧
      prove (fun p => to_bigint p) (fun l => l.sum) (2 : ZMod 13) 7 3 5 =
        prove_spec_alg (fun p => to_bigint p) (fun l => l.sum)
          (2 : ZMod 13) 7 3 5 :=
  ⟨by decide,
    prove_follows_spec 13 (by decide) (fun p => to_bigint p)
      (fun l => l.sum) 2 7 3 5⟩

/-- C10: `prove` is total at the public interface: for every pair of scalar
inputs `(m, r)` — the zero scalar included — and every nonce, it returns a
`PedersenBlindingProof` (there is no error branch and no input is
rejected), and the returned proof carries `m` in its `m` field. -/
theorem prove_total (q : ℕ) (xcoor : ZMod q → ℤ) (create_hash : List ℤ → ℤ)
    (h2 : ZMod q) (m r s : ZMod q) :
    ∃ p : PedersenBlindingProof q,
      prove xcoor create_hash h2 m r s = p ∧ p.m = m :=
  ⟨prove xcoor create_hash h2 m r s, rfl, rfl⟩

/-!
## Point serialization

The byte-level point (de)serialization of `ECPoint` lives in the external
curve backends; only its contract is declared in `traits.rs`.  It is
modelled from the spec: the identity has no encoding (`serialize` returns
`none` on it), a non-identity point is encoded from its coordinates either
compressed — a parity prefix byte (2 for even `y`, 3 for odd `y`) followed
by the `k` big-endian bytes of `x` — or uncompressed — the prefix byte 4
followed by the `k` bytes of `x` and the `k` bytes of `y` — and
`deserialize` deduces the form from the byte length.  The curve equation
check and compressed-point decompression belong to the backend and are
passed as function parameters `on_curve` and `decompress`.
-/

/-- Struct `PointCoords` from `traits.rs`: affine coordinates as nonnegative big
integers. -/
structure PointCoords : Type where
  x : ℕ
  y : ℕ
deriving DecidableEq

/-- Struct `DeserializationError` from `traits.rs`: fieldless. -/
inductive DeserializationError : Type
  | mk : DeserializationError
deriving DecidableEq

/-- Fixed-width big-endian byte string of a natural number. -/
def bytesBE : ℕ → ℕ → List ℕ
  | 0, _ => []
  | k + 1, n => bytesBE k (n / 256) ++ [n % 256]

/-- Reads back a big-endian byte string. -/
def fromBytesBE (l : List ℕ) : ℕ := l.foldl (fun acc b => acc * 256 + b) 0

theorem length_bytesBE (k n : ℕ) : (bytesBE k n).length = k := by
  induction k generalizing n with
  | zero => rfl
  | succ k ih => simp [bytesBE, ih]

theorem fromBytesBE_bytesBE (k n : ℕ) : fromBytesBE (bytesBE k n) = n % 256 ^ k := by
  induction k generalizing n with
  | zero => simp [bytesBE, fromBytesBE, Nat.mod_one]
  | succ k ih =>
    have h : fromBytesBE (bytesBE k (n / 256) ++ [n % 256]) =
        fromBytesBE (bytesBE k (n / 256)) * 256 + n % 256 := by
      simp [fromBytesBE, List.foldl_append]
    rw [bytesBE, h, ih]
    rw [pow_succ, mul_comm (256 ^ k) 256, Nat.mod_mul]
    ring

/-- Modelled from the spec: `ECPoint::serialize` over a point given as
`none` (the identity) or its coordinates, with `k`-byte coordinates. -/
def serialize (k : ℕ) (P : Option PointCoords) (compressed : Bool) :
    Option (List ℕ) :=
  match P with
  | none => none
  | some c =>
    if compressed then
      some ((if c.y % 2 = 0 then 2 else 3) :: bytesBE k c.x)
    else
      some (4 :: (bytesBE k c.x ++ bytesBE k c.y))

/-- Modelled from the spec: `ECPoint::deserialize`; the compressed or
uncompressed form is deduced from the byte length, malformed or off-curve
input fails with `DeserializationError`. -/
def deserialize (k : ℕ) (on_curve : ℕ → ℕ → Bool)
    (decompress : ℕ → ℕ → Option ℕ) (bytes : List ℕ) :
    Except DeserializationError (Option PointCoords) :=
  match bytes with
  | [] => Except.error DeserializationError.mk
  | b :: rest =>
    if rest.length = 2 * k ∧ b = 4 then
      let x := fromBytesBE (rest.take k)
      let y := fromBytesBE (rest.drop k)
      if on_curve x y then Except.ok (some ⟨x, y⟩)
      else Except.error DeserializationError.mk
    else if rest.length = k ∧ (b = 2 ∨ b = 3) then
      let x := fromBytesBE rest
      match decompress x (if b = 2 then 0 else 1) with
      | some y =>
        if on_curve x y then Except.ok (some ⟨x, y⟩)
        else Except.error DeserializationError.mk
      | none => Except.error DeserializationError.mk
    else Except.error DeserializationError.mk

/-- C7: point serialization round-trip: for every non-identity point with
in-range coordinates on the curve (and a backend decompression that inverts
the compression of that point) and for both compression modes, `serialize`
succeeds and `deserialize` recovers the point; `serialize` of the identity
point returns `none`. -/
theorem serialize_round_trip (k x y : ℕ) (on_curve : ℕ → ℕ → Bool)
    (decompress : ℕ → ℕ → Option ℕ) (compressed : Bool)
    (hx : x < 256 ^ k) (hy : y < 256 ^ k)
    (hcurve : on_curve x y = true)
    (hdec : decompress x (y % 2) = some y) :
    serialize k none compressed = none ∧
    ∃ bytes, serialize k (some ⟨x, y⟩) compressed = some bytes ∧
      deserialize k on_curve decompress bytes = Except.ok (some ⟨x, y⟩) := by
  refine ⟨rfl, ?_⟩
  cases compressed with
  | false =>
    refine ⟨4 :: (bytesBE k x ++ bytesBE k y), rfl, ?_⟩
    have htake : (bytesBE k x ++ bytesBE k y).take k = bytesBE k x :=
      List.take_left' (length_bytesBE k x)
    have hdrop : (bytesBE k x ++ bytesBE k y).drop k = bytesBE k y :=
      List.drop_left' (length_bytesBE k x)
    have hlen : (bytesBE k x ++ bytesBE k y).length = 2 * k := by
      simp [length_bytesBE]
      omega
    simp [deserialize, hlen, htake, hdrop, fromBytesBE_bytesBE,
      Nat.mod_eq_of_lt hx, Nat.mod_eq_of_lt hy, hcurve]
  | true =>
    rcases Nat.mod_two_eq_zero_or_one y with h2 | h2
    · refine ⟨2 :: bytesBE k x, by simp [serialize, h2], ?_⟩
      have hdec0 : decompress x 0 = some y := h2 ▸ hdec
      simp [deserialize, length_bytesBE, fromBytesBE_bytesBE,
        Nat.mod_eq_of_lt hx, hdec0, hcurve]
    · refine ⟨3 :: bytesBE k x, by simp [serialize, h2], ?_⟩
      have hdec1 : decompress x 1 = some y := h2 ▸ hdec
      simp [deserialize, length_bytesBE, fromBytesBE_bytesBE,
        Nat.mod_eq_of_lt hx, hdec1, hcurve]

/-- Witness for C7: the point `(3, 1)` of the curve `y^2 = x^3 + 7 mod 11`
with 1-byte coordinates, in both compression modes. -/
theorem serialize_round_trip_witness :
    (3 < 256 ^ 1 ∧ 1 < 256 ^ 1 ∧
      (fun x y => (y * y) % 11 == (x * x * x + 7) % 11) 3 1 = true ∧
      (fun x parity => (List.range 11).find?
          (fun y => ((y * y) % 11 == (x * x * x + 7) % 11) &&
            (y % 2 == parity))) 3 (1 % 2) = some 1) ∧
    (serialize 1 none true = none ∧
      ∃ bytes, serialize 1 (some ⟨3, 1⟩) true = some bytes ∧
        deserialize 1 (fun x y => (y * y) % 11 == (x * x * x + 7) % 11)
          (fun x parity => (List.range 11).find?
            (fun y => ((y * y) % 11 == (x * x * x + 7) % 11) &&
              (y % 2 == parity))) bytes = Except.ok (some ⟨3, 1⟩)) ∧
    (serialize 1 none false = none ∧
      ∃ bytes, serialize 1 (some ⟨3, 1⟩) false = some bytes ∧
        deserialize 1 (fun x y => (y * y) % 11 == (x * x * x + 7) % 11)
          (fun x parity => (List.range 11).find?
            (fun y => ((y * y) % 11 == (x * x * x + 7) % 11) &&
              (y % 2 == parity))) bytes = Except.ok (some ⟨3, 1⟩)) :=
  ⟨⟨by decide, by decide, by decide, by decide⟩,
    serialize_round_trip 1 3 1 _ _ true (by decide) (by decide) (by decide)
      (by decide),
    serialize_round_trip 1 3 1 _ _ false (by decide) (by decide) (by decide)
      (by decide)⟩

end CryptoUtils
